import Mathlib

/-!
Verification of the Huffman encoder in `huffman.py`.

Python values are embedded as follows: Python strings become `List Char`,
Python lists become Lean lists, `None`-able tree references become
`Option HuffmanNode`, a raised exception becomes an `Except` error or an
`Option` `none`, and the possibly non-terminating recursion of
`huff_helper` is modelled with an explicit fuel parameter (`none` = the
recursion did not finish within the given fuel).
-/

set_option maxRecDepth 100000

namespace Huffman

open List

/-- `HuffmanNode` from `huffman.py`: a character code, a frequency, and
optional left/right subtrees (`HTree = Union[None, HuffmanNode]`). -/
inductive HuffmanNode : Type where
  | mk : Nat → Nat → Option HuffmanNode → Option HuffmanNode → HuffmanNode

/-- Field `char_ascii` of a `HuffmanNode`. -/
def HuffmanNode.char_ascii : HuffmanNode → Nat
  | .mk c _ _ _ => c

/-- Field `freq` of a `HuffmanNode`. -/
def HuffmanNode.freq : HuffmanNode → Nat
  | .mk _ f _ _ => f

/-- Field `left` of a `HuffmanNode`. -/
def HuffmanNode.left : HuffmanNode → Option HuffmanNode
  | .mk _ _ l _ => l

/-- Field `right` of a `HuffmanNode`. -/
def HuffmanNode.right : HuffmanNode → Option HuffmanNode
  | .mk _ _ _ r => r

/-- `comes_before` from `huffman.py`: `a` comes before `b` iff
`a.freq < b.freq`, or the frequencies are equal and
`a.char_ascii < b.char_ascii`. -/
def comes_before (a b : HuffmanNode) : Bool :=
  if a.freq < b.freq then true
  else if a.freq = b.freq then
    if a.char_ascii < b.char_ascii then true else false
  else false

/-- `combine` from `huffman.py`, with its exact branch structure. -/
def combine (a b : HuffmanNode) : HuffmanNode :=
  if a.freq < b.freq then
    if a.char_ascii < b.char_ascii then
      HuffmanNode.mk a.char_ascii (a.freq + b.freq) (some a) (some b)
    else
      HuffmanNode.mk b.char_ascii (a.freq + b.freq) (some a) (some b)
  else if a.freq = b.freq then
    if a.char_ascii < b.char_ascii then
      HuffmanNode.mk a.char_ascii (a.freq + b.freq) (some a) (some b)
    else
      HuffmanNode.mk b.char_ascii (a.freq + b.freq) (some b) (some a)
  else
    if a.char_ascii < b.char_ascii then
      HuffmanNode.mk a.char_ascii (a.freq + b.freq) (some b) (some a)
    else
      HuffmanNode.mk b.char_ascii (a.freq + b.freq) (some b) (some a)

/-- Two nodes are comparable when one of them comes before the other;
this holds exactly when they differ in frequency or in character code. -/
def cmpable (a b : HuffmanNode) : Prop :=
  comes_before a b = true ∨ comes_before b a = true

/-- The in-place swap `huf_lis[x], huf_lis[x+1] = huf_lis[x+1], huf_lis[x]`
performed by `huff_helper`, as a functional update of the list. -/
def swapAdj : List HuffmanNode → Nat → List HuffmanNode
  | a :: b :: t, 0 => b :: a :: t
  | a :: t, n + 1 => a :: swapAdj t n
  | l, _ => l

/-- Number of inversions of one element against a list: how many elements
of `l` come strictly before `a` under `comes_before`. -/
def invAgainst (a : HuffmanNode) : List HuffmanNode → Nat
  | [] => 0
  | b :: t => (if comes_before b a then 1 else 0) + invAgainst a t

/-- Total number of out-of-order pairs `(i, j)`, `i < j`, of a list:
the classical bubble-sort measure. -/
def inversions : List HuffmanNode → Nat
  | [] => 0
  | a :: t => invAgainst a t + inversions t

/-- One pass of the `for x in range(len(huf_lis) - 1)` loop of
`huff_helper`, starting at index `x` with `k` iterations remaining;
`f` is the recursive call made after each swap.  A `none` result means
some recursive call ran out of fuel. -/
def hhIter (f : List HuffmanNode → Option (List HuffmanNode)) :
    Nat → Nat → List HuffmanNode → Option (List HuffmanNode)
  | 0, _, l => some l
  | k + 1, x, l =>
    match l[x]?, l[x + 1]? with
    | some a, some b =>
      if comes_before a b then hhIter f k (x + 1) l
      else
        match f (swapAdj l x) with
        | none => none
        | some m => hhIter f k (x + 1) m
    | _, _ => some l

/-- `huff_helper` from `huffman.py`, with fuel bounding the depth of the
recursion (which is genuinely unbounded: the Python function recurses
forever on a list with two equal nodes). -/
def huff_helper_fuel : Nat → List HuffmanNode → Option (List HuffmanNode)
  | 0, _ => none
  | n + 1, l => hhIter (huff_helper_fuel n) (l.length - 1) 0 l

/-- `huff_helper` run with fuel `inversions l + 1`, which is proved
sufficient whenever the list is pairwise comparable (the only situation
in which the Python recursion terminates at all). -/
def huff_helper_run (l : List HuffmanNode) : Option (List HuffmanNode) :=
  huff_helper_fuel (inversions l + 1) l

/-- `huff_helper` terminates on `l` when some finite fuel suffices. -/
def hhTerminates (l : List HuffmanNode) : Prop :=
  ∃ n, (huff_helper_fuel n l).isSome

/-- The leaf-construction loop of `create_huff_tree`: one leaf per index
with nonzero count, in index order. -/
def buildLeaves : Nat → List Nat → List HuffmanNode
  | _, [] => []
  | i, f :: t =>
    if f ≠ 0 then HuffmanNode.mk i f none none :: buildLeaves (i + 1) t
    else buildLeaves (i + 1) t

/-- Stable insertion of a node into a frequency-sorted list: the node
goes in front of the first element whose frequency is not smaller, so
earlier elements keep their relative order on ties. -/
def insFreq (n : HuffmanNode) : List HuffmanNode → List HuffmanNode
  | [] => [n]
  | a :: t => if a.freq < n.freq then a :: insFreq n t else n :: a :: t

/-- `huf_lis.sort(key=lambda n: n.freq)`: Python's list sort is a stable
ascending sort by the key, whose result is uniquely determined; it is
embedded as a stable insertion sort by frequency. -/
def sortByFreq : List HuffmanNode → List HuffmanNode
  | [] => []
  | a :: t => insFreq a (sortByFreq t)

/-- The sort step of `create_huff_tree`:
`huf_lis.sort(key=lambda n: n.freq)` followed by `huff_helper(huf_lis)`. -/
def sortStep (l : List HuffmanNode) : Option (List HuffmanNode) :=
  huff_helper_run (sortByFreq l)

/-- The `while len(huf_lis) >= 2` loop of `create_huff_tree`.  One fuel
unit per iteration (the length drops by one each time, so fuel ≥ length
suffices).  In each iteration `combine(huf_lis[0], huf_lis[1])` is
appended, the first two elements are sliced off by `huf_lis[2:]`, and the
list is re-sorted (sort + `huff_helper`).  On exit the loop returns
`huf_lis[0]`. -/
def htLoop : Nat → List HuffmanNode → Option (Option HuffmanNode)
  | 0, _ => none
  | fuel + 1, a :: b :: t =>
    match sortStep (t ++ [combine a b]) with
    | none => none
    | some m => htLoop fuel m
  | _ + 1, l => some l.head?

/-- `create_huff_tree` from `huffman.py`.  The outer `none` means a fuel
bound was exceeded (proved not to happen on these inputs); `some none` is
Python's `None` result for an all-zero table. -/
def create_huff_tree (char_freq : List Nat) : Option (Option HuffmanNode) :=
  if char_freq.sum = 0 then some none
  else
    match sortStep (buildLeaves 0 char_freq) with
    | none => none
    | some m => htLoop m.length m

/-- `create_code_helper` from `huffman.py`; `none` models the Python
`AttributeError` crash on a node with exactly one child (such a node is
never built). -/
def create_code_helper : HuffmanNode → List Char → List (List Char) → Option (List (List Char))
  | .mk c _ none none, code, py_list => some (py_list.set c code)
  | .mk _ _ (some a) (some b), code, py_list =>
    match create_code_helper a (code ++ ['0']) py_list with
    | none => none
    | some l1 => create_code_helper b (code ++ ['1']) l1
  | _, _, _ => none

/-- `create_code` from `huffman.py`; the 256-slot list starts with empty
strings and the helper fills in the leaf codes (`none` models the crash
on a `None` tree, which `huffman_encode` never passes in). -/
def create_code : Option HuffmanNode → Option (List (List Char))
  | none => none
  | some node => create_code_helper node [] (List.replicate 256 [])

/-- Python's `str` of a natural number, as a character list. -/
def natStr (n : Nat) : List Char := Nat.toDigits 10 n

/-- The accumulation loop of `create_header`: for every nonzero count,
append `str(count) + ' ' + str(freq) + ' '`. -/
def headerBody : Nat → List Nat → List Char
  | _, [] => []
  | count, f :: t =>
    (if f ≠ 0 then natStr count ++ [' '] ++ natStr f ++ [' '] else []) ++
      headerBody (count + 1) t

/-- `create_header` from `huffman.py`: the accumulated pairs with the last
character (the trailing space, when any pair was emitted) sliced off by
`header[0:len(header)-1]`. -/
def create_header (freqs : List Nat) : List Char :=
  (headerBody 0 freqs).take ((headerBody 0 freqs).length - 1)

/-- The two exceptions the program can raise. -/
inductive PyErr : Type where
  | fileNotFound : PyErr
  | indexError : PyErr
deriving DecidableEq

/-- The counting loop of `cnt_freq`:
`values[ord(char)] = values[ord(char)] + 1` for each character of the
data; `none` models the `IndexError` on a character above 255. -/
def cntLoop : List Nat → List Char → Option (List Nat)
  | values, [] => some values
  | values, c :: t =>
    if c.toNat < values.length then
      cntLoop (values.set c.toNat (values.getD c.toNat 0 + 1)) t
    else none

/-- `cnt_freq` from `huffman.py`.  The input resource is `none` when the
named file does not exist (then `FileNotFoundError` is raised before any
counting), otherwise `some` its text; counting starts from 256 zeros. -/
def cnt_freq : Option (List Char) → Except PyErr (List Nat)
  | none => Except.error PyErr.fileNotFound
  | some data =>
    match cntLoop (List.replicate 256 0) data with
    | none => Except.error PyErr.indexError
    | some values => Except.ok values

/-- The encoding loop of `huffman_encode`:
`code = code + code_list[ord(char)]` over the input characters. -/
def encodeBody (code_list : List (List Char)) : List Char → List Char
  | [] => []
  | c :: t => code_list.getD c.toNat [] ++ encodeBody code_list t

/-- `huffman_encode` from `huffman.py`, on the contents of the input
resource (`none` input = missing file).  The `Except.ok` value is the full
text written to the output resource (`some []` = the file is created and
closed with zero bytes written); an inner `none` means a fuel bound was
exceeded or an unreachable crash case was hit. -/
def huffman_encode (in_file : Option (List Char)) : Except PyErr (Option (List Char)) :=
  match cnt_freq in_file, in_file with
  | Except.error e, _ => Except.error e
  | Except.ok _, none => Except.error PyErr.fileNotFound
  | Except.ok freqlist, some phrase =>
    Except.ok (match create_huff_tree freqlist with
      | none => none
      | some none => some []
      | some (some huff) =>
        match create_code (some huff) with
        | none => none
        | some code_list =>
          some (create_header freqlist ++ ['\n'] ++ encodeBody code_list phrase))

/-- The leaves of a tree as (char, freq) pairs, left to right.  A node
with `None` children on both sides is a leaf, exactly as tested by
`create_code_helper`. -/
def leavesOf : HuffmanNode → List (Nat × Nat)
  | .mk c f none none => [(c, f)]
  | .mk _ _ (some a) (some b) => leavesOf a ++ leavesOf b
  | .mk _ _ (some a) none => leavesOf a
  | .mk _ _ none (some b) => leavesOf b

/-- All nodes of a tree: the node itself and, recursively, the nodes of
its children. -/
def subtrees : HuffmanNode → List HuffmanNode
  | .mk c f none none => [HuffmanNode.mk c f none none]
  | .mk c f (some a) (some b) =>
    HuffmanNode.mk c f (some a) (some b) :: (subtrees a ++ subtrees b)
  | .mk c f (some a) none => HuffmanNode.mk c f (some a) none :: subtrees a
  | .mk c f none (some b) => HuffmanNode.mk c f none (some b) :: subtrees b

/-- Structural invariant of every tree the builder creates: each node is a
leaf or has two children whose frequencies sum to its frequency and whose
minimum character code is its character code. -/
def goodTree : HuffmanNode → Bool
  | .mk _ _ none none => true
  | .mk c f (some a) (some b) =>
    goodTree a && goodTree b && (f == a.freq + b.freq) &&
      (c == min a.char_ascii b.char_ascii)
  | _ => false

/-- The relation `comes_before` as a `Prop`-valued order. -/
def cbRel (a b : HuffmanNode) : Prop := comes_before a b = true

/-- The nonzero `(symbol, frequency)` pairs of a count list, in ascending
symbol order, starting the symbol numbering at `i`. -/
def nonzeroPairs : Nat → List Nat → List (Nat × Nat)
  | _, [] => []
  | i, f :: t =>
    if f ≠ 0 then (i, f) :: nonzeroPairs (i + 1) t else nonzeroPairs (i + 1) t

/-- The text `"<symbol> <frequency>"` of one header pair. -/
def pairText (p : Nat × Nat) : List Char :=
  natStr p.1 ++ [' '] ++ natStr p.2

/-- Header text as the spec (§4.6) words it: emit the pair texts, joined
by a single separating space, with no trailing separator. -/
def specHeader : List (Nat × Nat) → List Char
  | [] => []
  | [p] => pairText p
  | p :: q :: rest => pairText p ++ [' '] ++ specHeader (q :: rest)

/-- The `(leaf character, code)` pairs that `create_code_helper node code`
writes, in traversal order. -/
def codePairs : HuffmanNode → List Char → List (Nat × List Char)
  | .mk c _ none none, code => [(c, code)]
  | .mk _ _ (some a) (some b), code =>
    codePairs a (code ++ ['0']) ++ codePairs b (code ++ ['1'])
  | _, _ => []

/-- Insertion into a list kept in `comes_before` order; used to state the
spec's (§4.4) ordered-multiset tree builder. -/
def insertOrd (n : HuffmanNode) : List HuffmanNode → List HuffmanNode
  | [] => [n]
  | a :: t => if comes_before n a then n :: a :: t else a :: insertOrd n t

/-- The spec's (§4.4) TreeBuilder loop on an ordered list: repeatedly
remove the two lowest-order nodes, merge them, and insert the result
back, until at most one node remains.  The fuel (one unit per merge) only
makes the recursion structural; `specBuild` supplies enough. -/
def specLoop : Nat → List HuffmanNode → Option HuffmanNode
  | _, [] => none
  | _, [x] => some x
  | fuel + 1, a :: b :: t => specLoop fuel (insertOrd (combine a b) t)
  | 0, _ :: _ :: _ => none

/-- The spec's (§4.4) TreeBuilder: one leaf per nonzero count, kept as an
ordered multiset (here: a list sorted by NodeOrder, i.e. `a` may stand
before `b` unless `b` strictly precedes `a`), then repeated merging of
the two globally lowest-order nodes. -/
def specBuild (char_freq : List Nat) : Option HuffmanNode :=
  let leaves := (buildLeaves 0 char_freq).mergeSort fun a b => ! comes_before b a
  specLoop leaves.length leaves

/-- The frequency table of the text `"aaabbbbcc"`: a = 3, b = 4, c = 2. -/
def exampleFreq : List Nat :=
  (((List.replicate 256 0).set 97 3).set 98 4).set 99 2

/-! ### The node order -/

@[simp] theorem HuffmanNode.char_ascii_mk (c f : Nat) (l r : Option HuffmanNode) :
    (HuffmanNode.mk c f l r).char_ascii = c := rfl

@[simp] theorem HuffmanNode.freq_mk (c f : Nat) (l r : Option HuffmanNode) :
    (HuffmanNode.mk c f l r).freq = f := rfl

@[simp] theorem HuffmanNode.left_mk (c f : Nat) (l r : Option HuffmanNode) :
    (HuffmanNode.mk c f l r).left = l := rfl

@[simp] theorem HuffmanNode.right_mk (c f : Nat) (l r : Option HuffmanNode) :
    (HuffmanNode.mk c f l r).right = r := rfl

/-- `comes_before` decides the strict lexicographic order on
(frequency, character code). -/
theorem comes_before_iff (a b : HuffmanNode) :
    comes_before a b = true ↔
      a.freq < b.freq ∨ (a.freq = b.freq ∧ a.char_ascii < b.char_ascii) := by
  unfold comes_before
  split_ifs with h1 h2 h3 <;> simp <;> omega

theorem comes_before_asymm {a b : HuffmanNode} (h : comes_before a b = true) :
    ¬ comes_before b a = true := by
  rw [comes_before_iff] at *
  omega

theorem comes_before_trans {a b c : HuffmanNode} (h1 : comes_before a b = true)
    (h2 : comes_before b c = true) : comes_before a c = true := by
  rw [comes_before_iff] at *
  omega

theorem comes_before_irrefl (a : HuffmanNode) : ¬ comes_before a a = true := by
  rw [comes_before_iff]
  omega

theorem cmpable_of_ne_key {a b : HuffmanNode}
    (h : a.freq ≠ b.freq ∨ a.char_ascii ≠ b.char_ascii) : cmpable a b := by
  unfold cmpable
  rw [comes_before_iff, comes_before_iff]
  omega

theorem cmpable_of_char_ne {a b : HuffmanNode} (h : a.char_ascii ≠ b.char_ascii) :
    cmpable a b :=
  cmpable_of_ne_key (Or.inr h)

theorem cmpable_symm {a b : HuffmanNode} (h : cmpable a b) : cmpable b a :=
  h.elim Or.inr Or.inl

/-- For comparable nodes, failing `comes_before` one way means succeeding
the other way. -/
theorem comes_before_of_not {a b : HuffmanNode} (hc : cmpable a b)
    (h : comes_before a b = false) : comes_before b a = true := by
  rcases hc with hab | hba
  · rw [hab] at h
    exact absurd h (by simp)
  · exact hba

instance : IsTrans HuffmanNode cbRel := ⟨fun _ _ _ => comes_before_trans⟩

instance : IsAntisymm HuffmanNode cbRel :=
  ⟨fun _ _ h h' => absurd h' (comes_before_asymm h)⟩

/-! ### Properties of `combine` -/

theorem combine_freq (a b : HuffmanNode) : (combine a b).freq = a.freq + b.freq := by
  unfold combine
  split_ifs <;> rfl

theorem combine_char (a b : HuffmanNode) :
    (combine a b).char_ascii = min a.char_ascii b.char_ascii := by
  unfold combine
  split_ifs <;> simp <;> omega

/-- The children of `combine a b` are exactly `a` and `b`, in one of the
two orders. -/
theorem combine_children (a b : HuffmanNode) :
    ((combine a b).left = some a ∧ (combine a b).right = some b) ∨
      ((combine a b).left = some b ∧ (combine a b).right = some a) := by
  unfold combine
  split_ifs <;> simp

theorem combine_left_of_comes_before {a b : HuffmanNode} (h : comes_before a b = true) :
    (combine a b).left = some a ∧ (combine a b).right = some b := by
  rw [comes_before_iff] at h
  unfold combine
  split_ifs <;> simp <;> omega

theorem combine_comm_of_cmpable {a b : HuffmanNode} (h : cmpable a b) :
    combine a b = combine b a := by
  rcases h with h | h <;> rw [comes_before_iff] at h <;>
    · unfold combine
      split_ifs <;> first | rfl | (exfalso; omega) | (simp [Nat.add_comm] <;> omega)

/-- Claim C2: `combine x y` always has frequency `x.freq + y.freq` and
character code `min x.char_ascii y.char_ascii`; whenever one argument
comes before the other, the earlier one becomes the left child and the
later one the right child, and `combine` is commutative. -/
theorem claim_C2 (x y : HuffmanNode) :
    (combine x y).freq = x.freq + y.freq ∧
    (combine x y).char_ascii = min x.char_ascii y.char_ascii ∧
    (comes_before x y = true →
      (combine x y).left = some x ∧ (combine x y).right = some y) ∧
    (comes_before y x = true →
      (combine x y).left = some y ∧ (combine x y).right = some x) ∧
    (cmpable x y → combine x y = combine y x) := by
  refine ⟨combine_freq x y, combine_char x y, combine_left_of_comes_before, ?_, ?_⟩
  · intro h
    have := combine_left_of_comes_before h
    rw [combine_comm_of_cmpable (Or.inr h)]
    exact this
  · exact combine_comm_of_cmpable

/-- Claim C2, witnessed at the two leaves `(97, 3)` and `(99, 2)`. -/
theorem claim_C2_witness :
    (combine (HuffmanNode.mk 97 3 none none) (HuffmanNode.mk 99 2 none none)).freq = 5 ∧
    (combine (HuffmanNode.mk 97 3 none none) (HuffmanNode.mk 99 2 none none)).left =
      some (HuffmanNode.mk 99 2 none none) := by
  have h := claim_C2 (HuffmanNode.mk 97 3 none none) (HuffmanNode.mk 99 2 none none)
  refine ⟨h.1, (h.2.2.2.1 (by rw [comes_before_iff]; simp)).1⟩

/-! ### Positional access helpers -/

theorem getElem?_pairwise {α : Type _} {R : α → α → Prop} {l : List α}
    (h : l.Pairwise R) {i j : Nat} {a b : α} (hij : i < j)
    (ha : l[i]? = some a) (hb : l[j]? = some b) : R a b := by
  rw [List.getElem?_eq_some_iff] at ha hb
  obtain ⟨hi, rfl⟩ := ha
  obtain ⟨hj, rfl⟩ := hb
  exact List.pairwise_iff_getElem.mp h i j hi hj hij

theorem getElem?_chain' {α : Type _} {R : α → α → Prop} {l : List α}
    (h : l.Chain' R) {i : Nat} {a b : α}
    (ha : l[i]? = some a) (hb : l[i + 1]? = some b) : R a b := by
  rw [List.getElem?_eq_some_iff] at ha hb
  obtain ⟨hi, rfl⟩ := ha
  obtain ⟨hj, rfl⟩ := hb
  have := List.chain'_iff_get.mp h i (by omega)
  simpa [List.get_eq_getElem] using this

theorem chain'_of_getElem? {α : Type _} {R : α → α → Prop} {l : List α}
    (h : ∀ i a b, l[i]? = some a → l[i + 1]? = some b → R a b) :
    l.Chain' R := by
  rw [List.chain'_iff_get]
  intro i hi
  exact h i _ _ (List.getElem?_eq_getElem (by omega)) (List.getElem?_eq_getElem (by omega))

/-! ### `swapAdj` and `inversions` -/

theorem swapAdj_perm (l : List HuffmanNode) : ∀ x, swapAdj l x ~ l := by
  induction l with
  | nil => intro x; cases x <;> simp [swapAdj]
  | cons a t ih =>
    intro x
    cases x with
    | zero =>
      cases t with
      | nil => simp [swapAdj]
      | cons b t' => exact List.Perm.swap a b t'
    | succ n =>
      have hs : swapAdj (a :: t) (n + 1) = a :: swapAdj t n := by
        simp [swapAdj]
      rw [hs]
      exact (ih n).cons a

theorem invAgainst_eq_countP (a : HuffmanNode) (l : List HuffmanNode) :
    invAgainst a l = l.countP (fun b => comes_before b a) := by
  induction l with
  | nil => rfl
  | cons b t ih => simp [invAgainst, List.countP_cons, ih]; omega

theorem invAgainst_perm (a : HuffmanNode) {l l' : List HuffmanNode} (h : l ~ l') :
    invAgainst a l = invAgainst a l' := by
  rw [invAgainst_eq_countP, invAgainst_eq_countP]
  exact h.countP_eq _

/-- Swapping an adjacent out-of-order pair removes exactly one inversion. -/
theorem inversions_swapAdj :
    ∀ (l : List HuffmanNode) (x : Nat) (a b : HuffmanNode),
      l[x]? = some a → l[x + 1]? = some b → comes_before b a = true →
      inversions l = inversions (swapAdj l x) + 1 := by
  intro l
  induction l with
  | nil => intro x a b ha; simp at ha
  | cons c t ih =>
    intro x a b ha hb hba
    cases x with
    | zero =>
      rw [List.getElem?_cons_succ] at hb
      cases t with
      | nil => simp at hb
      | cons d t' =>
        have h1 : comes_before d c = true := by
          have hca : c = a := by simpa using ha
          have hdb : d = b := by simpa using hb
          rw [hca, hdb]
          exact hba
        have h2 : comes_before c d = false :=
          Bool.eq_false_iff.mpr (comes_before_asymm h1)
        simp [swapAdj, inversions, invAgainst, h1, h2]
        omega
    | succ n =>
      rw [List.getElem?_cons_succ] at ha hb
      have hswap : swapAdj (c :: t) (n + 1) = c :: swapAdj t n := by
        simp [swapAdj]
      rw [hswap]
      have hinv : invAgainst c (swapAdj t n) = invAgainst c t :=
        invAgainst_perm c (swapAdj_perm t n)
      simp only [inversions, hinv]
      have := ih n a b ha hb hba
      omega

/-- A list whose pairs are all in order has no inversions. -/
theorem inversions_eq_zero_of_pairwise {l : List HuffmanNode}
    (h : l.Pairwise cbRel) : inversions l = 0 := by
  induction h with
  | nil => rfl
  | cons hhead _ ih =>
    rename_i a t _
    have hz : invAgainst a t = 0 := by
      rw [invAgainst_eq_countP, List.countP_eq_zero]
      intro b hb
      simpa using comes_before_asymm (hhead b hb)
    simp [inversions, hz, ih]

/-! ### `huff_helper` sorts pairwise-comparable lists -/

/-- With fuel one more than the inversion count, `huff_helper` terminates
on every pairwise-comparable list and returns a `comes_before`-sorted
permutation of it. -/
theorem hh_fuel_sorts :
    ∀ (N : Nat) (l : List HuffmanNode), l.Pairwise cmpable → inversions l ≤ N →
      ∃ l', huff_helper_fuel (N + 1) l = some l' ∧ l' ~ l ∧ l'.Chain' cbRel := by
  intro N
  induction N using Nat.strong_induction_on with
  | _ N SIH =>
    have loop : ∀ (k x : Nat) (l : List HuffmanNode), l.Pairwise cmpable →
        inversions l ≤ N → k + x = l.length - 1 →
        (∀ i a b, i < x → l[i]? = some a → l[i + 1]? = some b → cbRel a b) →
        ∃ l', hhIter (huff_helper_fuel N) k x l = some l' ∧ l' ~ l ∧
          l'.Chain' cbRel := by
      intro k
      induction k with
      | zero =>
        intro x l _ _ hx hsorted
        refine ⟨l, rfl, Perm.refl l, ?_⟩
        exact chain'_of_getElem? fun i a b ha hb => by
          have hilen : i + 1 < l.length := (List.getElem?_eq_some_iff.mp hb).1
          exact hsorted i a b (by omega) ha hb
      | succ k ihk =>
        intro x l hpc hinv hx hsorted
        have hx1len : x + 1 < l.length := by omega
        have hxlen : x < l.length := by omega
        have hxa : l[x]? = some l[x] := List.getElem?_eq_getElem hxlen
        have hxb : l[x + 1]? = some l[x + 1] := List.getElem?_eq_getElem hx1len
        cases hcb : comes_before l[x] l[x + 1] with
        | true =>
          obtain ⟨l', hl', hperm, hchain⟩ := ihk (x + 1) l hpc hinv (by omega)
            (fun i a b hi ha hb => by
              rcases Nat.lt_or_ge i x with hix | hix
              · exact hsorted i a b hix ha hb
              · have : i = x := by omega
                subst this
                rw [hxa, Option.some.injEq] at ha
                rw [hxb, Option.some.injEq] at hb
                subst ha; subst hb
                exact hcb)
          refine ⟨l', ?_, hperm, hchain⟩
          rw [hhIter, hxa, hxb]
          simpa [hcb] using hl'
        | false =>
          have hcmp : cmpable l[x] l[x + 1] :=
            getElem?_pairwise hpc (by omega) hxa hxb
          have hba : comes_before l[x + 1] l[x] = true :=
            comes_before_of_not hcmp hcb
          have hdec : inversions l = inversions (swapAdj l x) + 1 :=
            inversions_swapAdj l x _ _ hxa hxb hba
          have hN1 : 1 ≤ N := by omega
          have hpc' : (swapAdj l x).Pairwise cmpable :=
            ((swapAdj_perm l x).pairwise_iff (fun h => cmpable_symm h)).mpr hpc
          obtain ⟨m, hm, hmperm, hmchain⟩ :=
            SIH (N - 1) (by omega) (swapAdj l x) hpc' (by omega)
          rw [Nat.sub_add_cancel hN1] at hm
          have hmlen : m.length = l.length :=
            (hmperm.trans (swapAdj_perm l x)).length_eq
          obtain ⟨l', hl', hperm, hchain⟩ := ihk (x + 1) m
            ((hmperm.trans (swapAdj_perm l x)).pairwise_iff
              (fun h => cmpable_symm h) |>.mpr hpc)
            (by
              have : inversions m = 0 := inversions_eq_zero_of_pairwise
                (List.chain'_iff_pairwise.mp hmchain)
              omega)
            (by omega)
            (fun i a b _ ha hb => getElem?_chain' hmchain ha hb)
          refine ⟨l', ?_, hperm.trans (hmperm.trans (swapAdj_perm l x)), hchain⟩
          rw [hhIter, hxa, hxb]
          simpa [hcb, hm] using hl'
    intro l hpc hinv
    obtain ⟨l', hl', hperm, hchain⟩ :=
      loop (l.length - 1) 0 l hpc hinv (by omega)
        (fun i a b hi _ _ => absurd hi (Nat.not_lt_zero i))
    exact ⟨l', by simpa [huff_helper_fuel] using hl', hperm, hchain⟩

/-- `huff_helper_run` (fuel = inversions + 1) succeeds on every
pairwise-comparable list and returns the sorted permutation. -/
theorem huff_helper_run_sorts {l : List HuffmanNode} (h : l.Pairwise cmpable) :
    ∃ l', huff_helper_run l = some l' ∧ l' ~ l ∧ l'.Chain' cbRel :=
  hh_fuel_sorts (inversions l) l h (Nat.le_refl _)

/-- On a list of two identical nodes, `huff_helper` swaps the (equal)
pair and recurses on the unchanged list, so no amount of fuel finishes. -/
theorem hh_diverges_on_dup (fuel : Nat) :
    huff_helper_fuel fuel
      [HuffmanNode.mk 0 1 none none, HuffmanNode.mk 0 1 none none] = none := by
  induction fuel with
  | zero => rfl
  | succ n ih =>
    rw [huff_helper_fuel]
    simp [hhIter, swapAdj, comes_before, ih]

/-- Claim C10, counterexample: `huff_helper` does not terminate on every
finite list of nodes — on `[Node(0,1), Node(0,1)]` the recursion never
finishes (Python exceeds the recursion limit). -/
theorem claim_C10_counterexample :
    ¬ hhTerminates [HuffmanNode.mk 0 1 none none, HuffmanNode.mk 0 1 none none] := by
  rintro ⟨n, h⟩
  rw [hh_diverges_on_dup n] at h
  simp at h

/-- Claim C10, amended: for every finite list of nodes of which no two
share both frequency and symbol id (pairwise comparable — the only lists
`create_huff_tree` ever passes in), `huff_helper` terminates, and it
returns the same nodes rearranged so that every adjacent pair is in
`comes_before` order. -/
theorem claim_C10 (l : List HuffmanNode) (h : l.Pairwise cmpable) :
    hhTerminates l ∧
      ∃ l', huff_helper_run l = some l' ∧ l' ~ l ∧ l'.Chain' cbRel := by
  obtain ⟨l', hrun, hperm, hchain⟩ := huff_helper_run_sorts h
  exact ⟨⟨inversions l + 1, by rw [show huff_helper_fuel (inversions l + 1) l =
    huff_helper_run l from rfl, hrun]; rfl⟩, l', hrun, hperm, hchain⟩

/-- Claim C10, witnessed on the two-leaf list `[(97,3), (99,2)]`. -/
theorem claim_C10_witness :
    hhTerminates [HuffmanNode.mk 97 3 none none, HuffmanNode.mk 99 2 none none] ∧
      ∃ l', huff_helper_run
          [HuffmanNode.mk 97 3 none none, HuffmanNode.mk 99 2 none none] = some l' ∧
        l' ~ [HuffmanNode.mk 97 3 none none, HuffmanNode.mk 99 2 none none] ∧
        l'.Chain' cbRel :=
  claim_C10 [HuffmanNode.mk 97 3 none none, HuffmanNode.mk 99 2 none none]
    (by
      refine List.Pairwise.cons ?_ (List.pairwise_singleton _ _)
      intro b hb
      rw [List.mem_singleton] at hb
      subst hb
      exact cmpable_of_char_ne (by simp))

/-! ### Sorted permutations are unique -/

theorem chain'_cbRel_pairwise {l : List HuffmanNode} (h : l.Chain' cbRel) :
    l.Pairwise cbRel :=
  List.chain'_iff_pairwise.mp h

theorem sorted_perm_unique {l₁ l₂ : List HuffmanNode} (hp : l₁ ~ l₂)
    (h₁ : l₁.Chain' cbRel) (h₂ : l₂.Chain' cbRel) : l₁ = l₂ :=
  List.eq_of_perm_of_sorted hp (chain'_cbRel_pairwise h₁) (chain'_cbRel_pairwise h₂)

/-- Distinct character codes make a node list pairwise comparable. -/
theorem pairwise_cmpable_of_nodup_chars {L : List HuffmanNode}
    (h : (L.map HuffmanNode.char_ascii).Nodup) : L.Pairwise cmpable := by
  rw [List.Nodup, List.pairwise_map] at h
  exact h.imp fun hne => cmpable_of_char_ne hne

theorem insFreq_perm (n : HuffmanNode) : ∀ t, insFreq n t ~ n :: t := by
  intro t
  induction t with
  | nil => exact Perm.refl _
  | cons a t' ih =>
    rw [insFreq]
    by_cases hc : a.freq < n.freq
    · rw [if_pos hc]
      exact (ih.cons a).trans (Perm.swap n a t')
    · rw [if_neg hc]

theorem sortByFreq_perm : ∀ l, sortByFreq l ~ l := by
  intro l
  induction l with
  | nil => exact Perm.refl _
  | cons a t ih =>
    rw [sortByFreq]
    exact ((insFreq_perm a (sortByFreq t)).trans (ih.cons a))

/-- `sortStep` succeeds on pairwise-comparable input and returns its
`comes_before`-sorted permutation. -/
theorem sortStep_sorts {L : List HuffmanNode} (h : L.Pairwise cmpable) :
    ∃ m, sortStep L = some m ∧ m ~ L ∧ m.Chain' cbRel := by
  have hperm : sortByFreq L ~ L := sortByFreq_perm L
  have hpc : (sortByFreq L).Pairwise cmpable :=
    (hperm.pairwise_iff fun h => cmpable_symm h).mpr h
  obtain ⟨m, hrun, hmperm, hchain⟩ := huff_helper_run_sorts hpc
  exact ⟨m, hrun, hmperm.trans hperm, hchain⟩

/-! ### The shape of `combine` -/

theorem combine_shape (a b : HuffmanNode) :
    combine a b = HuffmanNode.mk (min a.char_ascii b.char_ascii)
        (a.freq + b.freq) (some a) (some b) ∨
      combine a b = HuffmanNode.mk (min a.char_ascii b.char_ascii)
        (a.freq + b.freq) (some b) (some a) := by
  unfold combine
  split_ifs <;> first | (left; simp; omega) | (right; simp; omega)

theorem goodTree_combine {a b : HuffmanNode} (ha : goodTree a = true)
    (hb : goodTree b = true) : goodTree (combine a b) = true := by
  rcases combine_shape a b with h | h <;> rw [h] <;>
    simp [goodTree, ha, hb] <;> omega

theorem leavesOf_combine (a b : HuffmanNode) :
    leavesOf (combine a b) ~ leavesOf a ++ leavesOf b := by
  rcases combine_shape a b with h | h <;> rw [h]
  · exact Perm.refl _
  · exact List.perm_append_comm

/-! ### `buildLeaves` and `nonzeroPairs` -/

theorem buildLeaves_eq_map (f : List Nat) :
    ∀ i, buildLeaves i f =
      (nonzeroPairs i f).map fun p => HuffmanNode.mk p.1 p.2 none none := by
  induction f with
  | nil => intro i; rfl
  | cons x t ih =>
    intro i
    by_cases hx : x = 0 <;> simp [buildLeaves, nonzeroPairs, hx, ih]

theorem nonzeroPairs_lb (f : List Nat) :
    ∀ i p, p ∈ nonzeroPairs i f → i ≤ p.1 := by
  induction f with
  | nil => intro i p h; simp [nonzeroPairs] at h
  | cons x t ih =>
    intro i p h
    rw [nonzeroPairs] at h
    by_cases hx : x = 0
    · simp [hx] at h
      exact le_trans (by omega) (ih (i + 1) p h)
    · simp [hx] at h
      rcases h with h | h
      · simp [h]
      · exact le_trans (by omega) (ih (i + 1) p h)

theorem nonzeroPairs_pairwise (f : List Nat) :
    ∀ i, (nonzeroPairs i f).Pairwise fun p q => p.1 < q.1 := by
  induction f with
  | nil => intro i; simp [nonzeroPairs]
  | cons x t ih =>
    intro i
    rw [nonzeroPairs]
    by_cases hx : x = 0
    · simpa [hx] using ih (i + 1)
    · simp only [hx, ne_eq, not_false_iff, if_pos]
      refine List.Pairwise.cons ?_ (ih (i + 1))
      intro q hq
      have := nonzeroPairs_lb t (i + 1) q hq
      simpa using by omega

theorem nonzeroPairs_nodup_fst (f : List Nat) (i : Nat) :
    ((nonzeroPairs i f).map Prod.fst).Nodup := by
  rw [List.Nodup, List.pairwise_map]
  exact (nonzeroPairs_pairwise f i).imp fun h => Nat.ne_of_lt h

theorem nonzeroPairs_mem (f : List Nat) :
    ∀ i p, p ∈ nonzeroPairs i f ↔
      ∃ j, j < f.length ∧ p.1 = i + j ∧ p.2 = f.getD j 0 ∧ p.2 ≠ 0 := by
  induction f with
  | nil => intro i p; simp [nonzeroPairs]
  | cons x t ih =>
    intro i p
    rw [nonzeroPairs]
    by_cases hx : x = 0
    · rw [if_neg (by simp [hx]), ih (i + 1)]
      constructor
      · rintro ⟨j, hj, h1, h2, h3⟩
        refine ⟨j + 1, by simp; omega, by omega, by simpa using h2, h3⟩
      · rintro ⟨j, hj, h1, h2, h3⟩
        cases j with
        | zero =>
          rw [List.getD_cons_zero, hx] at h2
          exact absurd h2 h3
        | succ j' =>
          simp only [List.length_cons] at hj
          rw [List.getD_cons_succ] at h2
          exact ⟨j', by omega, by omega, h2, h3⟩
    · rw [if_pos hx, List.mem_cons, ih (i + 1)]
      constructor
      · rintro (rfl | ⟨j, hj, h1, h2, h3⟩)
        · exact ⟨0, by simp, by simp, by simp, hx⟩
        · refine ⟨j + 1, by simp; omega, by omega, by simpa using h2, h3⟩
      · rintro ⟨j, hj, h1, h2, h3⟩
        cases j with
        | zero =>
          left
          rw [List.getD_cons_zero] at h2
          have h1' : p.1 = i := by omega
          obtain ⟨p1, p2⟩ := p
          simp at h1' h2
          rw [h1', h2]
        | succ j' =>
          right
          simp only [List.length_cons] at hj
          rw [List.getD_cons_succ] at h2
          exact ⟨j', by omega, by omega, h2, h3⟩

theorem nonzeroPairs_eq_nil_iff (f : List Nat) :
    ∀ i, nonzeroPairs i f = [] ↔ f.sum = 0 := by
  induction f with
  | nil => intro i; simp [nonzeroPairs]
  | cons x t ih =>
    intro i
    rw [nonzeroPairs]
    by_cases hx : x = 0
    · simp [hx, ih (i + 1)]
    · simp [hx]
      try omega

theorem buildLeaves_chars (f : List Nat) (i : Nat) :
    (buildLeaves i f).map HuffmanNode.char_ascii =
      (nonzeroPairs i f).map Prod.fst := by
  rw [buildLeaves_eq_map, List.map_map]
  rfl

theorem buildLeaves_goodTree (f : List Nat) (i : Nat) :
    ∀ t ∈ buildLeaves i f, goodTree t = true := by
  rw [buildLeaves_eq_map]
  intro t ht
  rw [List.mem_map] at ht
  obtain ⟨p, _, rfl⟩ := ht
  rfl

theorem buildLeaves_leaves (f : List Nat) (i : Nat) :
    (buildLeaves i f).flatMap leavesOf = nonzeroPairs i f := by
  rw [buildLeaves_eq_map]
  induction nonzeroPairs i f with
  | nil => rfl
  | cons p t ih =>
    rw [List.map_cons, List.flatMap_cons, ih]
    rfl

theorem nonzeroPairs_snd_sum (f : List Nat) :
    ∀ i, ((nonzeroPairs i f).map Prod.snd).sum = f.sum := by
  induction f with
  | nil => intro i; simp [nonzeroPairs]
  | cons x t ih =>
    intro i
    rw [nonzeroPairs]
    by_cases hx : x = 0 <;> simp [hx, ih (i + 1)]

theorem buildLeaves_freq_sum (f : List Nat) (i : Nat) :
    ((buildLeaves i f).map HuffmanNode.freq).sum = f.sum := by
  rw [buildLeaves_eq_map, List.map_map]
  rw [show (HuffmanNode.freq ∘ fun p : Nat × Nat =>
    HuffmanNode.mk p.1 p.2 none none) = Prod.snd from rfl]
  exact nonzeroPairs_snd_sum f i

/-! ### The while loop of `create_huff_tree` -/

/-- One merge step keeps root characters pairwise distinct: the merged
node takes the smaller of the two removed characters. -/
theorem step_chars {a b : HuffmanNode} {t : List HuffmanNode}
    (hnodup : ((a :: b :: t).map HuffmanNode.char_ascii).Nodup) :
    a.char_ascii ∉ t.map HuffmanNode.char_ascii ∧
    b.char_ascii ∉ t.map HuffmanNode.char_ascii ∧
    (t.map HuffmanNode.char_ascii).Nodup ∧
    ((t ++ [combine a b]).map HuffmanNode.char_ascii).Nodup := by
  have hchars : (a :: b :: t).map HuffmanNode.char_ascii =
      a.char_ascii :: b.char_ascii :: t.map HuffmanNode.char_ascii := rfl
  rw [hchars] at hnodup
  have hna : a.char_ascii ∉ t.map HuffmanNode.char_ascii := by
    have h1 := (List.nodup_cons.mp hnodup).1
    intro hmem
    exact h1 (List.mem_cons_of_mem _ hmem)
  have hnb : b.char_ascii ∉ t.map HuffmanNode.char_ascii :=
    (List.nodup_cons.mp ((List.nodup_cons.mp hnodup).2)).1
  have hnt : (t.map HuffmanNode.char_ascii).Nodup :=
    (List.nodup_cons.mp ((List.nodup_cons.mp hnodup).2)).2
  refine ⟨hna, hnb, hnt, ?_⟩
  rw [List.map_append, List.nodup_append]
  refine ⟨hnt, List.nodup_singleton _, ?_⟩
  intro c hc hcc
  simp [combine_char] at hcc
  rcases min_choice a.char_ascii b.char_ascii with hmin | hmin <;>
    rw [hcc, hmin] at hc
  · exact hna hc
  · exact hnb hc

/-- Loop invariant of the `while len(huf_lis) >= 2` loop: on a nonempty
working list of good trees with pairwise distinct root characters, and
fuel at least the list length, the loop succeeds and returns a good root
whose frequency is the total frequency of the working list and whose
leaves are exactly the leaves of the working list. -/
theorem htLoop_spec :
    ∀ (fuel : Nat) (L : List HuffmanNode), L ≠ [] → L.length ≤ fuel →
      (∀ t ∈ L, goodTree t = true) →
      ((L.map HuffmanNode.char_ascii).Nodup) →
      ∃ root, htLoop fuel L = some (some root) ∧ goodTree root = true ∧
        root.freq = (L.map HuffmanNode.freq).sum ∧
        leavesOf root ~ L.flatMap leavesOf := by
  intro fuel
  induction fuel with
  | zero =>
    intro L hne hlen _ _
    exact absurd (List.length_eq_zero.mp (Nat.le_zero.mp hlen)) hne
  | succ fuel ih =>
    intro L hne hlen hgood hnodup
    match L, hne with
    | [x], _ =>
      exact ⟨x, rfl, hgood x (by simp), by simp, by simp⟩
    | a :: b :: t, _ =>
      have hnodupL2 := (step_chars hnodup).2.2.2
      obtain ⟨m, hsort, hmperm, _⟩ :=
        sortStep_sorts (pairwise_cmpable_of_nodup_chars hnodupL2)
      have hmlen : m.length = t.length + 1 := by
        rw [hmperm.length_eq]
        simp
      obtain ⟨root, hloop, hgroot, hfreq, hleaves⟩ := ih m
        (by intro hm; rw [hm] at hmlen; simp at hmlen)
        (by simp at hlen; omega)
        (by
          intro s hs
          rw [hmperm.mem_iff] at hs
          rcases List.mem_append.mp hs with hs | hs
          · exact hgood s (by simp [hs])
          · rw [List.mem_singleton] at hs
            subst hs
            exact goodTree_combine (hgood a (by simp)) (hgood b (by simp)))
        (hnodupL2.perm (hmperm.map HuffmanNode.char_ascii).symm)
      refine ⟨root, ?_, hgroot, ?_, ?_⟩
      · rw [htLoop, hsort]
        exact hloop
      · rw [hfreq, (hmperm.map HuffmanNode.freq).sum_eq]
        simp [combine_freq]
        omega
      · refine hleaves.trans ?_
        refine (Perm.flatMap_right leavesOf hmperm).trans ?_
        rw [List.flatMap_append]
        have h1 : (t.flatMap leavesOf) ++ [combine a b].flatMap leavesOf ~
            (t.flatMap leavesOf) ++ (leavesOf a ++ leavesOf b) := by
          refine Perm.append_left _ ?_
          simpa using leavesOf_combine a b
        refine h1.trans ?_
        refine List.perm_append_comm.trans ?_
        simp [List.flatMap_cons, List.append_assoc]

/-- `create_huff_tree` on a table with nonzero total succeeds and returns
a good root carrying the total frequency, whose leaves are exactly the
nonzero `(symbol, frequency)` pairs of the table. -/
theorem create_huff_tree_spec (f : List Nat) (h : f.sum ≠ 0) :
    ∃ root, create_huff_tree f = some (some root) ∧ goodTree root = true ∧
      root.freq = f.sum ∧ leavesOf root ~ nonzeroPairs 0 f := by
  rw [create_huff_tree, if_neg h]
  have hnodup : ((buildLeaves 0 f).map HuffmanNode.char_ascii).Nodup := by
    rw [buildLeaves_chars]
    exact nonzeroPairs_nodup_fst f 0
  obtain ⟨m, hsort, hmperm, _⟩ :=
    sortStep_sorts (pairwise_cmpable_of_nodup_chars hnodup)
  rw [hsort]
  have hbne : buildLeaves 0 f ≠ [] := by
    rw [buildLeaves_eq_map]
    intro hcon
    rw [List.map_eq_nil] at hcon
    exact h ((nonzeroPairs_eq_nil_iff f 0).mp hcon)
  obtain ⟨root, hloop, hgroot, hfreq, hleaves⟩ := htLoop_spec m.length m
    (by
      intro hm
      have hzero : (buildLeaves 0 f).length = 0 := by
        rw [← hmperm.length_eq, hm]
        rfl
      exact hbne (List.length_eq_zero.mp hzero))
    (Nat.le_refl _)
    (by
      intro s hs
      exact buildLeaves_goodTree f 0 s (hmperm.mem_iff.mp hs))
    (hnodup.perm (hmperm.map HuffmanNode.char_ascii).symm)
  refine ⟨root, hloop, hgroot, ?_, ?_⟩
  · rw [hfreq, (hmperm.map HuffmanNode.freq).sum_eq, buildLeaves_freq_sum]
  · refine hleaves.trans ?_
    refine (Perm.flatMap_right leavesOf hmperm).trans ?_
    rw [buildLeaves_leaves]

/-! ### Good trees: weights and characters versus leaves -/

/-- In a good tree, every node's frequency is the sum of the leaf
frequencies below it, and its character is the least leaf character. -/
theorem goodTree_leaves_spec :
    ∀ (t : HuffmanNode), goodTree t = true →
      t.freq = ((leavesOf t).map Prod.snd).sum ∧
      t.char_ascii ∈ (leavesOf t).map Prod.fst ∧
      (∀ c ∈ (leavesOf t).map Prod.fst, t.char_ascii ≤ c)
  | .mk c f none none, _ => by simp [leavesOf]
  | .mk c f (some a) none, h => by simp [goodTree] at h
  | .mk c f none (some b), h => by simp [goodTree] at h
  | .mk c f (some a) (some b), h => by
    rw [goodTree] at h
    simp only [Bool.and_eq_true, beq_iff_eq] at h
    obtain ⟨⟨⟨hga, hgb⟩, hf⟩, hc⟩ := h
    obtain ⟨hsa, hma, hba⟩ := goodTree_leaves_spec a hga
    obtain ⟨hsb, hmb, hbb⟩ := goodTree_leaves_spec b hgb
    have hleq : leavesOf (HuffmanNode.mk c f (some a) (some b)) =
        leavesOf a ++ leavesOf b := rfl
    refine ⟨?_, ?_, ?_⟩
    · rw [hleq]
      simp [hf, hsa, hsb]
    · rw [hleq, List.map_append, List.mem_append]
      rcases min_choice a.char_ascii b.char_ascii with hmin | hmin
      · left
        simp only [HuffmanNode.char_ascii_mk, hc, hmin]
        exact hma
      · right
        simp only [HuffmanNode.char_ascii_mk, hc, hmin]
        exact hmb
    · rw [hleq, List.map_append]
      intro c' hc'
      rcases List.mem_append.mp hc' with hc' | hc'
      · have := hba c' hc'
        simp only [HuffmanNode.char_ascii_mk, hc]
        omega
      · have := hbb c' hc'
        simp only [HuffmanNode.char_ascii_mk, hc]
        omega

/-- Every node of a good tree is itself a good tree. -/
theorem subtrees_good :
    ∀ (t : HuffmanNode), goodTree t = true → ∀ s ∈ subtrees t, goodTree s = true
  | .mk c f none none, h => by
    intro s hs
    rw [subtrees, List.mem_singleton] at hs
    subst hs
    exact h
  | .mk c f (some a) none, h => by simp [goodTree] at h
  | .mk c f none (some b), h => by simp [goodTree] at h
  | .mk c f (some a) (some b), h => by
    intro s hs
    have h' := h
    rw [goodTree] at h'
    simp only [Bool.and_eq_true, beq_iff_eq] at h'
    rw [subtrees, List.mem_cons] at hs
    rcases hs with rfl | hs
    · exact h
    · rcases List.mem_append.mp hs with hs | hs
      · exact subtrees_good a h'.1.1.1 s hs
      · exact subtrees_good b h'.1.1.2 s hs

/-- Claim C4: for every table with a nonzero entry, the built root's
weight is the table's total; every node of the tree has weight equal to
the sum of the leaf weights of its subtree and character equal to the
least character among its leaves; and `combine` preserves this shape
invariant. -/
theorem claim_C4 (f : List Nat) (h : f.sum ≠ 0) :
    ∃ root, create_huff_tree f = some (some root) ∧
      root.freq = f.sum ∧
      (∀ t ∈ subtrees root,
        t.freq = ((leavesOf t).map Prod.snd).sum ∧
        t.char_ascii ∈ (leavesOf t).map Prod.fst ∧
        ∀ c ∈ (leavesOf t).map Prod.fst, t.char_ascii ≤ c) ∧
      (∀ a b : HuffmanNode, goodTree a = true → goodTree b = true →
        goodTree (combine a b) = true) := by
  obtain ⟨root, hct, hg, hfreq, _⟩ := create_huff_tree_spec f h
  exact ⟨root, hct, hfreq,
    fun t ht => goodTree_leaves_spec t (subtrees_good root hg t ht),
    fun a b ha hb => goodTree_combine ha hb⟩

/-- Claim C4, witnessed on the `"aaabbbbcc"` frequency table. -/
theorem claim_C4_witness :
    exampleFreq.sum ≠ 0 ∧
      ∃ root, create_huff_tree exampleFreq = some (some root) ∧
        root.freq = exampleFreq.sum ∧
        (∀ t ∈ subtrees root,
          t.freq = ((leavesOf t).map Prod.snd).sum ∧
          t.char_ascii ∈ (leavesOf t).map Prod.fst ∧
          ∀ c ∈ (leavesOf t).map Prod.fst, t.char_ascii ≤ c) ∧
        (∀ a b : HuffmanNode, goodTree a = true → goodTree b = true →
          goodTree (combine a b) = true) :=
  ⟨by decide, claim_C4 exampleFreq (by decide)⟩

/-! ### Refinement: the builder loop is the spec's ordered-multiset loop -/

theorem insertOrd_perm (n : HuffmanNode) : ∀ t, insertOrd n t ~ n :: t := by
  intro t
  induction t with
  | nil => exact Perm.refl _
  | cons a t' ih =>
    rw [insertOrd]
    by_cases hc : comes_before n a = true
    · rw [if_pos hc]
    · rw [if_neg hc]
      exact (ih.cons a).trans (Perm.swap n a t')

theorem insertOrd_head (n : HuffmanNode) :
    ∀ t, (insertOrd n t).head? = some n ∨ (insertOrd n t).head? = t.head? := by
  intro t
  cases t with
  | nil => left; rfl
  | cons a t' =>
    rw [insertOrd]
    by_cases hc : comes_before n a = true
    · rw [if_pos hc]
      left
      rfl
    · rw [if_neg hc]
      right
      rfl

theorem insertOrd_chain' (n : HuffmanNode) :
    ∀ t, t.Chain' cbRel → (∀ b ∈ t, cmpable n b) →
      (insertOrd n t).Chain' cbRel := by
  intro t
  induction t with
  | nil => intro _ _; simp [insertOrd]
  | cons a t' ih =>
    intro hch hcmp
    rw [insertOrd]
    by_cases hc : comes_before n a = true
    · rw [if_pos hc]
      exact hch.cons hc
    · rw [if_neg hc]
      have han : cbRel a n :=
        comes_before_of_not (hcmp a (by simp)) (Bool.eq_false_iff.mpr hc)
      rw [List.chain'_cons']
      refine ⟨?_, ih (List.chain'_cons'.mp hch).2
        (fun b hb => hcmp b (List.mem_cons_of_mem _ hb))⟩
      intro y hy
      rcases insertOrd_head n t' with hh | hh <;> rw [hh] at hy
      · rw [Option.mem_def, Option.some.injEq] at hy
        subst hy
        exact han
      · exact (List.chain'_cons'.mp hch).1 y hy

/-- On a sorted working list with distinct root characters, the Python
loop body (combine the first two, append, slice, re-sort) computes
exactly the spec's ordered-insertion loop. -/
theorem htLoop_eq_specLoop :
    ∀ (fuel : Nat) (L : List HuffmanNode), L ≠ [] → L.length ≤ fuel →
      L.Chain' cbRel → ((L.map HuffmanNode.char_ascii).Nodup) →
      htLoop fuel L = some (specLoop fuel L) := by
  intro fuel
  induction fuel with
  | zero =>
    intro L hne hlen _ _
    exact absurd (List.length_eq_zero.mp (Nat.le_zero.mp hlen)) hne
  | succ fuel ih =>
    intro L hne hlen hch hnodup
    match L, hne with
    | [x], _ => rfl
    | a :: b :: t, _ =>
      obtain ⟨hna, hnb, hnt, hnodup2⟩ := step_chars hnodup
      obtain ⟨m, hsort, hmperm, hmch⟩ :=
        sortStep_sorts (pairwise_cmpable_of_nodup_chars hnodup2)
      have hcmb : ∀ s ∈ t, cmpable (combine a b) s := by
        intro s hs
        apply cmpable_of_char_ne
        rw [combine_char]
        have hsmem : s.char_ascii ∈ t.map HuffmanNode.char_ascii :=
          List.mem_map_of_mem _ hs
        rcases min_choice a.char_ascii b.char_ascii with hmin | hmin <;> rw [hmin]
        · exact fun hEq => hna (hEq ▸ hsmem)
        · exact fun hEq => hnb (hEq ▸ hsmem)
      have hins_chain : (insertOrd (combine a b) t).Chain' cbRel :=
        insertOrd_chain' (combine a b) t hch.tail.tail hcmb
      have hins_perm : m ~ insertOrd (combine a b) t :=
        (hmperm.trans (perm_append_singleton _ _)).trans
          (insertOrd_perm (combine a b) t).symm
      have hmeq : m = insertOrd (combine a b) t :=
        sorted_perm_unique hins_perm hmch hins_chain
      have hmlen : m.length = t.length + 1 := by
        rw [hmperm.length_eq]
        simp
      rw [htLoop, hsort, specLoop, ← hmeq]
      exact ih m
        (by intro hm; rw [hm] at hmlen; simp at hmlen)
        (by simp at hlen; omega)
        hmch
        (hnodup2.perm (hmperm.map HuffmanNode.char_ascii).symm)

/-- The booleanized NodeOrder `a ≼ b ⟺ ¬(b ≺ a)` is total. -/
theorem leRel_total (a b : HuffmanNode) :
    ((! comes_before b a) || (! comes_before a b)) = true := by
  cases hab : comes_before a b <;> cases hba : comes_before b a <;> simp_all
  exact comes_before_asymm hab hba

/-- The booleanized NodeOrder is transitive. -/
theorem leRel_trans (a b c : HuffmanNode) :
    (! comes_before b a) = true → (! comes_before c b) = true →
      (! comes_before c a) = true := by
  simp only [Bool.not_eq_true', Bool.eq_false_iff]
  intro h1 h2 h3
  rw [comes_before_iff] at h3
  have hba : ¬ (b.freq < a.freq ∨ (b.freq = a.freq ∧ b.char_ascii < a.char_ascii)) :=
    fun hcon => h1 ((comes_before_iff b a).mpr hcon)
  have hcb : ¬ (c.freq < b.freq ∨ (c.freq = b.freq ∧ c.char_ascii < b.char_ascii)) :=
    fun hcon => h2 ((comes_before_iff c b).mpr hcon)
  omega

/-- `create_huff_tree` is the spec's TreeBuilder: same result on every
frequency table. -/
theorem create_eq_specBuild (f : List Nat) :
    create_huff_tree f = some (specBuild f) := by
  by_cases h : f.sum = 0
  · rw [create_huff_tree, if_pos h, specBuild]
    have hnil : buildLeaves 0 f = [] := by
      rw [buildLeaves_eq_map, (nonzeroPairs_eq_nil_iff f 0).mpr h]
      rfl
    rw [hnil, List.mergeSort_nil]
    rfl
  · rw [create_huff_tree, if_neg h, specBuild]
    have hnodup : ((buildLeaves 0 f).map HuffmanNode.char_ascii).Nodup := by
      rw [buildLeaves_chars]
      exact nonzeroPairs_nodup_fst f 0
    have hpc := pairwise_cmpable_of_nodup_chars hnodup
    obtain ⟨m, hsort, hmperm, hmch⟩ := sortStep_sorts hpc
    have hslperm : (buildLeaves 0 f).mergeSort (fun a b => ! comes_before b a) ~
        buildLeaves 0 f := List.mergeSort_perm _ _
    have hslch : ((buildLeaves 0 f).mergeSort
        (fun a b => ! comes_before b a)).Chain' cbRel := by
      rw [List.chain'_iff_pairwise]
      have hsorted := @List.sorted_mergeSort HuffmanNode
        (fun a b => ! comes_before b a) leRel_trans leRel_total (buildLeaves 0 f)
      have hpc' := (hslperm.pairwise_iff (fun h => cmpable_symm h)).mpr hpc
      exact (hsorted.and hpc').imp fun hab =>
        comes_before_of_not (cmpable_symm hab.2) (by simpa using hab.1)
    have hmeq : m = (buildLeaves 0 f).mergeSort (fun a b => ! comes_before b a) :=
      sorted_perm_unique (hmperm.trans hslperm.symm) hmch hslch
    have hbne : buildLeaves 0 f ≠ [] := by
      rw [buildLeaves_eq_map]
      intro hcon
      rw [List.map_eq_nil_iff] at hcon
      exact h ((nonzeroPairs_eq_nil_iff f 0).mp hcon)
    rw [hsort, hmeq]
    apply htLoop_eq_specLoop
    · intro hcon
      exact hbne (List.eq_nil_of_length_eq_zero
        (by rw [← hslperm.length_eq, hcon]; rfl))
    · exact Nat.le_refl _
    · exact hslch
    · exact hnodup.perm (hslperm.map HuffmanNode.char_ascii).symm

/-- Claim C1: `create_huff_tree` returns Empty exactly for all-zero
tables and otherwise builds the spec's canonical tree: one leaf per
nonzero symbol, repeatedly merging the two globally lowest-order nodes
of the ordered multiset; on the `"aaabbbbcc"` table it first merges
c(2) and a(3) into a node of weight 5 and id 97, then merges that with
b(4) into the root of weight 9 and id 97 whose left child is b. -/
theorem claim_C1 (f : List Nat) :
    create_huff_tree f = some (specBuild f) ∧
    (f.sum = 0 → create_huff_tree f = some none) ∧
    (f.sum ≠ 0 → ∃ root, create_huff_tree f = some (some root)) ∧
    create_huff_tree exampleFreq = some (some (HuffmanNode.mk 97 9
      (some (HuffmanNode.mk 98 4 none none))
      (some (HuffmanNode.mk 97 5 (some (HuffmanNode.mk 99 2 none none))
        (some (HuffmanNode.mk 97 3 none none)))))) := by
  refine ⟨create_eq_specBuild f, ?_, ?_, by rfl⟩
  · intro h
    rw [create_huff_tree, if_pos h]
  · intro h
    obtain ⟨root, hct, _⟩ := create_huff_tree_spec f h
    exact ⟨root, hct⟩

/-- Claim C1, witnessed on the `"aaabbbbcc"` frequency table. -/
theorem claim_C1_witness :
    create_huff_tree exampleFreq = some (specBuild exampleFreq) ∧
      (exampleFreq.sum ≠ 0 ∧
        ∃ root, create_huff_tree exampleFreq = some (some root)) :=
  ⟨(claim_C1 exampleFreq).1, by decide, (claim_C1 exampleFreq).2.2.1 (by decide)⟩

/-! ### Code derivation and prefix-freeness -/

/-- On a good tree, `create_code_helper` succeeds and writes exactly the
`(leaf, code)` pairs of `codePairs`, in traversal order. -/
theorem create_code_helper_eq :
    ∀ (t : HuffmanNode), goodTree t = true →
      ∀ (code : List Char) (lst : List (List Char)),
        create_code_helper t code lst =
          some ((codePairs t code).foldl (fun l p => l.set p.1 p.2) lst)
  | .mk c f none none, _, code, lst => by
    rw [create_code_helper, codePairs]
    rfl
  | .mk c f (some a) none, h, _, _ => by simp [goodTree] at h
  | .mk c f none (some b), h, _, _ => by simp [goodTree] at h
  | .mk c f (some a) (some b), h, code, lst => by
    rw [goodTree] at h
    simp only [Bool.and_eq_true, beq_iff_eq] at h
    rw [create_code_helper]
    simp only [create_code_helper_eq a h.1.1.1, create_code_helper_eq b h.1.1.2]
    rw [show codePairs (HuffmanNode.mk c f (some a) (some b)) code =
      codePairs a (code ++ ['0']) ++ codePairs b (code ++ ['1']) from rfl,
      List.foldl_append]

/-- The leaf characters listed by `codePairs` are the leaf characters of
the tree. -/
theorem codePairs_fst :
    ∀ (t : HuffmanNode), goodTree t = true → ∀ (code : List Char),
      (codePairs t code).map Prod.fst = (leavesOf t).map Prod.fst
  | .mk c f none none, _, code => rfl
  | .mk c f (some a) none, h, _ => by simp [goodTree] at h
  | .mk c f none (some b), h, _ => by simp [goodTree] at h
  | .mk c f (some a) (some b), h, code => by
    rw [goodTree] at h
    simp only [Bool.and_eq_true, beq_iff_eq] at h
    rw [show codePairs (HuffmanNode.mk c f (some a) (some b)) code =
      codePairs a (code ++ ['0']) ++ codePairs b (code ++ ['1']) from rfl,
      show leavesOf (HuffmanNode.mk c f (some a) (some b)) =
        leavesOf a ++ leavesOf b from rfl,
      List.map_append, List.map_append,
      codePairs_fst a h.1.1.1, codePairs_fst b h.1.1.2]

/-- Every code issued below a node extends that node's path. -/
theorem codePairs_extends :
    ∀ (t : HuffmanNode) (code : List Char) (p : Nat × List Char),
      p ∈ codePairs t code → ∃ s, p.2 = code ++ s
  | .mk c f none none, code, p => by
    rw [codePairs, List.mem_singleton]
    rintro rfl
    exact ⟨[], by simp⟩
  | .mk c f (some a) none, code, p => by
    intro h
    rw [show codePairs (HuffmanNode.mk c f (some a) none) code = [] from rfl] at h
    simp at h
  | .mk c f none (some b), code, p => by
    intro h
    rw [show codePairs (HuffmanNode.mk c f none (some b)) code = [] from rfl] at h
    simp at h
  | .mk c f (some a) (some b), code, p => by
    rw [show codePairs (HuffmanNode.mk c f (some a) (some b)) code =
      codePairs a (code ++ ['0']) ++ codePairs b (code ++ ['1']) from rfl,
      List.mem_append]
    rintro (h | h)
    · obtain ⟨s, hs⟩ := codePairs_extends a (code ++ ['0']) p h
      exact ⟨'0' :: s, by rw [hs, List.append_assoc]; rfl⟩
    · obtain ⟨s, hs⟩ := codePairs_extends b (code ++ ['1']) p h
      exact ⟨'1' :: s, by rw [hs, List.append_assoc]; rfl⟩

/-- Codes of different leaves are never prefixes of one another: left
codes continue with `0` where right codes continue with `1`. -/
theorem codePairs_pairwise_np :
    ∀ (t : HuffmanNode) (code : List Char),
      (codePairs t code).Pairwise fun p q =>
        ¬ p.2 <+: q.2 ∧ ¬ q.2 <+: p.2
  | .mk c f none none, code => List.pairwise_singleton _ _
  | .mk c f (some a) none, code => by
    rw [show codePairs (HuffmanNode.mk c f (some a) none) code = [] from rfl]
    exact List.Pairwise.nil
  | .mk c f none (some b), code => by
    rw [show codePairs (HuffmanNode.mk c f none (some b)) code = [] from rfl]
    exact List.Pairwise.nil
  | .mk c f (some a) (some b), code => by
    rw [show codePairs (HuffmanNode.mk c f (some a) (some b)) code =
      codePairs a (code ++ ['0']) ++ codePairs b (code ++ ['1']) from rfl,
      List.pairwise_append]
    refine ⟨codePairs_pairwise_np a (code ++ ['0']),
      codePairs_pairwise_np b (code ++ ['1']), ?_⟩
    intro p hp q hq
    obtain ⟨s, hs⟩ := codePairs_extends a (code ++ ['0']) p hp
    obtain ⟨s', hs'⟩ := codePairs_extends b (code ++ ['1']) q hq
    rw [hs, hs', List.append_assoc, List.append_assoc]
    constructor
    · intro hpre
      have := (List.prefix_append_right_inj code).mp hpre
      rw [List.singleton_append, List.singleton_append,
        List.cons_prefix_cons] at this
      exact absurd this.1 (by decide)
    · intro hpre
      have := (List.prefix_append_right_inj code).mp hpre
      rw [List.singleton_append, List.singleton_append,
        List.cons_prefix_cons] at this
      exact absurd this.1 (by decide)

theorem foldl_set_length (ps : List (Nat × List Char)) :
    ∀ (lst : List (List Char)),
      (ps.foldl (fun l p => l.set p.1 p.2) lst).length = lst.length := by
  induction ps with
  | nil => intro lst; rfl
  | cons p ps' ih =>
    intro lst
    rw [List.foldl_cons, ih]
    exact List.length_set lst p.1 p.2

theorem foldl_set_getD_not_mem (ps : List (Nat × List Char)) :
    ∀ (lst : List (List Char)) (i : Nat), (∀ p ∈ ps, p.1 ≠ i) →
      (ps.foldl (fun l p => l.set p.1 p.2) lst).getD i [] = lst.getD i [] := by
  induction ps with
  | nil => intro lst i _; rfl
  | cons p ps' ih =>
    intro lst i hne
    rw [List.foldl_cons, ih _ i (fun q hq => hne q (List.mem_cons_of_mem _ hq))]
    rw [List.getD_eq_getElem?_getD, List.getD_eq_getElem?_getD,
      List.getElem?_set_ne (hne p (by simp))]

theorem foldl_set_getD_mem (ps : List (Nat × List Char)) :
    ∀ (lst : List (List Char)) (i : Nat) (s : List Char), i < lst.length →
      (i, s) ∈ ps → (ps.map Prod.fst).Nodup →
      (ps.foldl (fun l p => l.set p.1 p.2) lst).getD i [] = s := by
  induction ps with
  | nil => intro lst i s _ hmem; simp at hmem
  | cons p ps' ih =>
    intro lst i s hi hmem hnodup
    rw [List.foldl_cons]
    rcases List.mem_cons.mp hmem with heq | hmem'
    · have hpi : p.1 = i := by rw [← heq]
      have hps : p.2 = s := by rw [← heq]
      have hni : ∀ q ∈ ps', q.1 ≠ i := by
        intro q hq hqi
        have h1 := (List.nodup_cons.mp hnodup).1
        exact h1 (by
          rw [hpi, ← hqi]
          exact List.mem_map_of_mem _ hq)
      rw [foldl_set_getD_not_mem ps' _ i hni, hpi,
        List.getD_eq_getElem?_getD, List.getElem?_set_self (by simpa using hi)]
      rw [hps]
      rfl
    · exact ih _ i s (by simpa using hi) hmem' (List.nodup_cons.mp hnodup).2

/-- Claim C3: for every 256-entry table with at least two nonzero counts,
the code table derived from the built tree is prefix-free on the symbols
that occur. -/
theorem claim_C3 (f : List Nat) (hlen : f.length = 256)
    (h2 : 2 ≤ (nonzeroPairs 0 f).length) :
    ∃ root codes, create_huff_tree f = some (some root) ∧
      create_code (some root) = some codes ∧
      ∀ i j, i ≠ j → f.getD i 0 ≠ 0 → f.getD j 0 ≠ 0 →
        ¬ (codes.getD i []) <+: (codes.getD j []) := by
  have hsum : f.sum ≠ 0 := by
    intro hcon
    rw [← nonzeroPairs_eq_nil_iff f 0] at hcon
    rw [hcon] at h2
    simp at h2
  obtain ⟨root, hct, hg, _, hleaves⟩ := create_huff_tree_spec f hsum
  refine ⟨root, (codePairs root []).foldl (fun l p => l.set p.1 p.2)
    (List.replicate 256 []), hct, by
      rw [create_code, create_code_helper_eq root hg], ?_⟩
  have hfst : (codePairs root []).map Prod.fst ~ (nonzeroPairs 0 f).map Prod.fst := by
    rw [codePairs_fst root hg]
    exact hleaves.map Prod.fst
  have hnodupfst : ((codePairs root []).map Prod.fst).Nodup :=
    (nonzeroPairs_nodup_fst f 0).perm hfst.symm
  have hfind : ∀ i, f.getD i 0 ≠ 0 →
      ∃ s, (i, s) ∈ codePairs root [] ∧ i < 256 := by
    intro i hi
    have hilen : i < f.length := by
      by_contra hcon
      exact hi (List.getD_eq_default _ _ (by omega))
    have hmem : (i, f.getD i 0) ∈ nonzeroPairs 0 f :=
      (nonzeroPairs_mem f 0 (i, f.getD i 0)).mpr ⟨i, hilen, by omega, rfl, hi⟩
    have : i ∈ (codePairs root []).map Prod.fst := by
      rw [hfst.mem_iff]
      exact List.mem_map_of_mem _ hmem
    obtain ⟨p, hp, hpe⟩ := List.mem_map.mp this
    refine ⟨p.2, ?_, by omega⟩
    obtain ⟨p1, p2⟩ := p
    rw [show p1 = i from hpe] at hp
    exact hp
  intro i j hij hi hj
  obtain ⟨si, hsi, hib⟩ := hfind i hi
  obtain ⟨sj, hsj, hjb⟩ := hfind j hj
  have hgdi : ((codePairs root []).foldl (fun l p => l.set p.1 p.2)
      (List.replicate 256 [])).getD i [] = si :=
    foldl_set_getD_mem _ _ i si (by simpa using hib) hsi hnodupfst
  have hgdj : ((codePairs root []).foldl (fun l p => l.set p.1 p.2)
      (List.replicate 256 [])).getD j [] = sj :=
    foldl_set_getD_mem _ _ j sj (by simpa using hjb) hsj hnodupfst
  rw [hgdi, hgdj]
  have hnp := (codePairs_pairwise_np root []).forall
    (fun x y h => ⟨h.2, h.1⟩) hsi hsj
    (fun hcon => hij (congrArg Prod.fst hcon))
  exact hnp.1

/-- Claim C3, witnessed on the `"aaabbbbcc"` frequency table. -/
theorem claim_C3_witness :
    exampleFreq.length = 256 ∧ 2 ≤ (nonzeroPairs 0 exampleFreq).length ∧
      ∃ root codes, create_huff_tree exampleFreq = some (some root) ∧
        create_code (some root) = some codes ∧
        ∀ i j, i ≠ j → exampleFreq.getD i 0 ≠ 0 → exampleFreq.getD j 0 ≠ 0 →
          ¬ (codes.getD i []) <+: (codes.getD j []) :=
  ⟨by decide, by decide, claim_C3 exampleFreq (by decide) (by decide)⟩

/-! ### The header -/

theorem headerBody_eq (f : List Nat) :
    ∀ i, headerBody i f =
      (nonzeroPairs i f).flatMap fun p => pairText p ++ [' '] := by
  induction f with
  | nil => intro i; rfl
  | cons x t ih =>
    intro i
    rw [headerBody, nonzeroPairs]
    by_cases hx : x = 0
    · rw [if_neg (by simp [hx]), if_neg (by simp [hx]), List.nil_append, ih]
    · rw [if_pos hx, if_pos hx, List.flatMap_cons, ih]
      rfl

theorem joinTrail_take :
    ∀ ps : List (Nat × Nat),
      ((ps.flatMap fun p => pairText p ++ [' ']).take
        ((ps.flatMap fun p => pairText p ++ [' ']).length - 1)) = specHeader ps
  | [] => rfl
  | [p] => by
    rw [specHeader]
    have he : ([p].flatMap fun p => pairText p ++ [' ']) = pairText p ++ [' '] := by
      simp
    rw [he, List.length_append, List.length_singleton, Nat.add_sub_cancel,
      List.take_left]
  | p :: q :: rest => by
    have he : ((p :: q :: rest).flatMap fun p => pairText p ++ [' ']) =
        (pairText p ++ [' ']) ++ ((q :: rest).flatMap fun p => pairText p ++ [' ']) := by
      simp
    have hr1 : 1 ≤ ((q :: rest).flatMap fun p => pairText p ++ [' ']).length := by
      simp
      try omega
    rw [he, List.length_append, List.take_append_eq_append_take,
      List.take_of_length_le (by omega),
      show (pairText p ++ [' ']).length +
          ((q :: rest).flatMap fun p => pairText p ++ [' ']).length - 1 -
          (pairText p ++ [' ']).length =
          ((q :: rest).flatMap fun p => pairText p ++ [' ']).length - 1 by omega,
      joinTrail_take (q :: rest), specHeader]

/-- `create_header` computes exactly the spec's serialization. -/
theorem create_header_eq (f : List Nat) :
    create_header f = specHeader (nonzeroPairs 0 f) := by
  rw [create_header, headerBody_eq, joinTrail_take]

/-- Claim C5: the header consists of the pairs `"<symbol> <frequency>"`
for exactly the nonzero symbols, in ascending symbol order, joined by
single spaces with no trailing separator; on the `"aaabbbbcc"` table it
is exactly `"97 3 98 4 99 2"`. -/
theorem claim_C5 (f : List Nat) :
    create_header f = specHeader (nonzeroPairs 0 f) ∧
    (∀ p : Nat × Nat, p ∈ nonzeroPairs 0 f ↔
      ∃ j, j < f.length ∧ p.1 = j ∧ p.2 = f.getD j 0 ∧ p.2 ≠ 0) ∧
    (nonzeroPairs 0 f).Pairwise (fun p q => p.1 < q.1) ∧
    create_header exampleFreq = "97 3 98 4 99 2".data := by
  refine ⟨create_header_eq f, ?_, nonzeroPairs_pairwise f 0, by rfl⟩
  intro p
  rw [nonzeroPairs_mem f 0 p]
  simp

/-! ### Frequency counting -/

theorem sum_set_succ : ∀ (l : List Nat) (i : Nat), i < l.length →
    (l.set i (l.getD i 0 + 1)).sum = l.sum + 1 := by
  intro l
  induction l with
  | nil => intro i h; simp at h
  | cons a t ih =>
    intro i h
    cases i with
    | zero => simp; omega
    | succ n =>
      rw [List.set_cons_succ, List.getD_cons_succ, List.sum_cons, List.sum_cons,
        ih n (by simpa using h)]
      omega

/-- The counting loop succeeds on in-range characters, preserves the
256-slot shape, adds one per character to the total, and adds the
occurrence count of each codepoint to its slot. -/
theorem cntLoop_spec :
    ∀ (data : List Char) (values : List Nat), (∀ c ∈ data, c.toNat < 256) →
      values.length = 256 →
      ∃ v, cntLoop values data = some v ∧ v.length = 256 ∧
        v.sum = values.sum + data.length ∧
        ∀ i, v.getD i 0 = values.getD i 0 + (data.countP fun c => c.toNat == i) := by
  intro data
  induction data with
  | nil =>
    intro values _ hlen
    exact ⟨values, rfl, hlen, by simp, by simp⟩
  | cons c t ih =>
    intro values hchars hlen
    have hc : c.toNat < values.length := by
      rw [hlen]
      exact hchars c (by simp)
    obtain ⟨v, hloop, hvlen, hvsum, hvcnt⟩ :=
      ih (values.set c.toNat (values.getD c.toNat 0 + 1))
        (fun d hd => hchars d (List.mem_cons_of_mem _ hd))
        (by rw [List.length_set]; exact hlen)
    refine ⟨v, ?_, hvlen, ?_, ?_⟩
    · rw [cntLoop, if_pos hc]
      exact hloop
    · rw [hvsum, sum_set_succ values c.toNat hc]
      simp
      omega
    · intro i
      rw [hvcnt i, List.countP_cons]
      by_cases hci : c.toNat = i
      · rw [List.getD_eq_getElem?_getD values, List.getD_eq_getElem?_getD,
          ← hci, List.getElem?_set_self hc]
        simp
        omega
      · rw [List.getD_eq_getElem?_getD, List.getElem?_set_ne hci,
          ← List.getD_eq_getElem?_getD]
        simp [hci]

/-- `cnt_freq` on an existing in-range input: a 256-entry table whose
entry `i` counts the characters with codepoint `i`. -/
theorem cnt_freq_spec (data : List Char) (hchars : ∀ c ∈ data, c.toNat < 256) :
    ∃ v, cnt_freq (some data) = Except.ok v ∧ v.length = 256 ∧
      v.sum = data.length ∧
      ∀ i, v.getD i 0 = (data.countP fun c => c.toNat == i) := by
  obtain ⟨v, hloop, hvlen, hvsum, hvcnt⟩ :=
    cntLoop_spec data (List.replicate 256 0) hchars (by simp)
  refine ⟨v, ?_, hvlen, ?_, ?_⟩
  · rw [cnt_freq, hloop]
  · rw [hvsum]
    simp
  · intro i
    rw [hvcnt i, List.getD_eq_getElem?_getD]
    rw [List.getElem?_getD_replicate_default_eq]
    omega

/-- Claim C9: `cnt_freq` raises exactly on a missing input, before any
counting, aborting the whole operation with no output; on every existing
input over the byte alphabet it returns the 256-entry table of
occurrence counts, and on the empty input the all-zero table. -/
theorem claim_C9 :
    cnt_freq none = Except.error PyErr.fileNotFound ∧
    huffman_encode none = Except.error PyErr.fileNotFound ∧
    (∀ data : List Char, (∀ c ∈ data, c.toNat < 256) →
      ∃ v, cnt_freq (some data) = Except.ok v ∧ v.length = 256 ∧
        ∀ i, v.getD i 0 = (data.countP fun c => c.toNat == i)) ∧
    cnt_freq (some []) = Except.ok (List.replicate 256 0) := by
  refine ⟨rfl, rfl, ?_, rfl⟩
  intro data hchars
  obtain ⟨v, h1, h2, _, h4⟩ := cnt_freq_spec data hchars
  exact ⟨v, h1, h2, h4⟩

/-- Claim C9, witnessed on the two-character input `"ab"`. -/
theorem claim_C9_witness :
    (∀ c ∈ "ab".data, c.toNat < 256) ∧
      ∃ v, cnt_freq (some "ab".data) = Except.ok v ∧ v.length = 256 ∧
        ∀ i, v.getD i 0 = ("ab".data.countP fun c => c.toNat == i) :=
  ⟨by decide, claim_C9.2.2.1 "ab".data (by decide)⟩

/-- Claim C8: on the empty input all 256 counts are zero, the tree is
Empty, and the output resource receives zero bytes. -/
theorem claim_C8 :
    cnt_freq (some []) = Except.ok (List.replicate 256 0) ∧
    create_huff_tree (List.replicate 256 0) = some none ∧
    huffman_encode (some []) = Except.ok (some []) :=
  ⟨rfl, rfl, rfl⟩

/-! ### The encoder -/

theorem huffman_encode_eq (data : List Char) (v : List Nat)
    (hcnt : cnt_freq (some data) = Except.ok v) :
    huffman_encode (some data) = Except.ok (match create_huff_tree v with
      | none => none
      | some none => some []
      | some (some huff) =>
        match create_code (some huff) with
        | none => none
        | some code_list =>
          some (create_header v ++ ['\n'] ++ encodeBody code_list data)) := by
  unfold huffman_encode
  rw [hcnt]

/-- Claim C6: on every non-empty input over the byte alphabet the output
is exactly the header, one newline, then the concatenation of the
per-character codes in stream order; on `"aaabbbbcc"` the payload is
`"11111100001010"`. -/
theorem claim_C6 (data : List Char) (hne : data ≠ [])
    (hchars : ∀ c ∈ data, c.toNat < 256) :
    ∃ freqlist root codes,
      cnt_freq (some data) = Except.ok freqlist ∧
      create_huff_tree freqlist = some (some root) ∧
      create_code (some root) = some codes ∧
      huffman_encode (some data) =
        Except.ok (some (create_header freqlist ++ ['\n'] ++
          encodeBody codes data)) ∧
      huffman_encode (some "aaabbbbcc".data) =
        Except.ok (some ("97 3 98 4 99 2\n11111100001010".data)) := by
  obtain ⟨v, hcnt, hvlen, hvsum, _⟩ := cnt_freq_spec data hchars
  have hsum : v.sum ≠ 0 := by
    rw [hvsum]
    intro hcon
    exact hne (List.length_eq_zero.mp hcon)
  obtain ⟨root, hct, hg, _, _⟩ := create_huff_tree_spec v hsum
  have hcode : create_code (some root) = some ((codePairs root []).foldl
      (fun l p => l.set p.1 p.2) (List.replicate 256 [])) := by
    rw [create_code, create_code_helper_eq root hg]
  refine ⟨v, root, (codePairs root []).foldl (fun l p => l.set p.1 p.2)
    (List.replicate 256 []), hcnt, hct, hcode, ?_, by rfl⟩
  rw [huffman_encode_eq data v hcnt, hct]
  simp only [hcode]

/-- Claim C6, witnessed on the input `"aaabbbbcc"`. -/
theorem claim_C6_witness :
    "aaabbbbcc".data ≠ [] ∧ (∀ c ∈ "aaabbbbcc".data, c.toNat < 256) ∧
      ∃ freqlist root codes,
        cnt_freq (some "aaabbbbcc".data) = Except.ok freqlist ∧
        create_huff_tree freqlist = some (some root) ∧
        create_code (some root) = some codes ∧
        huffman_encode (some "aaabbbbcc".data) =
          Except.ok (some (create_header freqlist ++ ['\n'] ++
            encodeBody codes "aaabbbbcc".data)) ∧
        huffman_encode (some "aaabbbbcc".data) =
          Except.ok (some ("97 3 98 4 99 2\n11111100001010".data)) :=
  ⟨by decide, by decide, claim_C6 "aaabbbbcc".data (by decide) (by decide)⟩

/-- A slot that was set to the empty code reads back empty. -/
theorem getD_set_replicate_nil (i : Nat) :
    ((List.replicate 256 ([] : List Char)).set i []).getD i [] = [] := by
  by_cases h : i < 256
  · rw [List.getD_eq_getElem?_getD, List.getElem?_set_self (by simpa using h)]
    rfl
  · rw [List.getD_eq_default]
    rw [List.length_set, List.length_replicate]
    omega

/-- Claim C7: a table with exactly one nonzero entry builds a single
leaf, whose code is the empty string, so any input using only that
symbol encodes to an empty payload; on input `"zzzz"` the output is
exactly `"122 4"` and a newline. -/
theorem claim_C7 (f : List Nat) (i n : Nat)
    (h1 : nonzeroPairs 0 f = [(i, n)]) :
    create_huff_tree f = some (some (HuffmanNode.mk i n none none)) ∧
    create_code (some (HuffmanNode.mk i n none none)) =
      some ((List.replicate 256 []).set i []) ∧
    (∀ data : List Char, (∀ c ∈ data, c.toNat = i) →
      encodeBody ((List.replicate 256 []).set i []) data = []) ∧
    huffman_encode (some "zzzz".data) = Except.ok (some ("122 4\n".data)) := by
  have hsum : f.sum ≠ 0 := by
    intro hcon
    rw [← nonzeroPairs_eq_nil_iff f 0] at hcon
    rw [h1] at hcon
    simp at hcon
  have hbuild : buildLeaves 0 f = [HuffmanNode.mk i n none none] := by
    rw [buildLeaves_eq_map, h1]
    rfl
  refine ⟨?_, rfl, ?_, by rfl⟩
  · rw [create_huff_tree, if_neg hsum, hbuild]
    rfl
  · intro data hdata
    induction data with
    | nil => rfl
    | cons c t ih =>
      rw [encodeBody, hdata c (by simp), getD_set_replicate_nil,
        ih (fun d hd => hdata d (List.mem_cons_of_mem _ hd))]
      rfl

/-- Claim C7, witnessed on the table of `"zzzz"` (z = 4 only). -/
theorem claim_C7_witness :
    nonzeroPairs 0 ((List.replicate 256 0).set 122 4) = [(122, 4)] ∧
      (create_huff_tree ((List.replicate 256 0).set 122 4) =
        some (some (HuffmanNode.mk 122 4 none none)) ∧
      create_code (some (HuffmanNode.mk 122 4 none none)) =
        some ((List.replicate 256 []).set 122 []) ∧
      (∀ data : List Char, (∀ c ∈ data, c.toNat = 122) →
        encodeBody ((List.replicate 256 []).set 122 []) data = []) ∧
      huffman_encode (some "zzzz".data) = Except.ok (some ("122 4\n".data))) :=
  ⟨by decide, claim_C7 ((List.replicate 256 0).set 122 4) 122 4 (by decide)⟩

end Huffman
